import Mathlib

/-!
Shallow embedding of the layout-optimization core of
`key_board_layout_generator` (src/bin/explore_layouts.rs and src/lib.rs).

Floating-point (`f64`) arithmetic is modelled over the real numbers.
Partial operations of the Rust code (HashMap `unwrap`, `Vec` indexing,
`unimplemented!`) are totalized with explicit defaults; every theorem below
either supplies hypotheses under which the defaults are never read, or does
not depend on the defaulted values.  Randomness (`rand::Rng`) is modelled by
explicit oracle arguments: index choices, coin flips and the Bernoulli draw
become parameters of the functions that consume them.
-/

namespace KeyboardLayout

/-- Hand of a finger, from `Hand` in src/lib.rs. -/
inductive Hand where
  | Left
  | Right
  deriving DecidableEq, Repr

/-- Finger kind, from `FingerKind` in src/lib.rs. -/
inductive FingerKind where
  | Pinky
  | Ring
  | Middle
  | Index
  | Thumb
  deriving DecidableEq, Repr, Fintype

/-- A finger, from `Finger` in src/lib.rs. -/
structure Finger where
  hand : Hand
  finger : FingerKind
  deriving DecidableEq, Repr

/-- The subset of `device_query::Keycode` reachable from this program
(the key tables of explore_layouts.rs and the physical-key codes). -/
inductive Keycode where
  | A | B | C | D | E | F | G | H | I | J | K | L | M
  | N | O | P | Q | R | S | T | U | V | W | X | Y | Z
  | Key0 | Key1 | Key2 | Key3 | Key4 | Key5 | Key6 | Key7 | Key8 | Key9
  | Minus | Equal | LeftBracket | RightBracket | BackSlash
  | Semicolon | Apostrophe | Comma | Dot | Slash | Grave
  | Space | Backspace | Tab | Enter | CapsLock
  | LShift | RShift | LControl | RControl
  | LAlt | RAlt | LMeta | RMeta
  | Escape | Home | End | PageUp | PageDown
  | Left | Right | Up | Down | Delete
  deriving DecidableEq, Repr

/-- Logical key, from `enum Key` in explore_layouts.rs. -/
inductive Key where
  | Normal (normal : Char) (shifted : Char)
  | Backspace
  | Tab
  | Enter
  | CapsLock
  | LShift
  | RShift
  | LCtrl
  | RCtrl
  | LAlt
  | RAlt
  | LMeta
  | RMeta
  | Space
  | Escape
  | Home
  | End
  | PageUp
  | PageDown
  | Left
  | Right
  | Up
  | Down
  | Delete
  deriving DecidableEq, Repr

/-- Translation of `char_to_keycode` in explore_layouts.rs.  The Rust
function is `unimplemented!` outside this table; we default to `Keycode.Space`
for such characters (never reached by the theorems below). -/
def char_to_keycode (c : Char) : Keycode :=
  match c with
  | 'a' => .A | 'b' => .B | 'c' => .C | 'd' => .D | 'e' => .E
  | 'f' => .F | 'g' => .G | 'h' => .H | 'i' => .I | 'j' => .J
  | 'k' => .K | 'l' => .L | 'm' => .M | 'n' => .N | 'o' => .O
  | 'p' => .P | 'q' => .Q | 'r' => .R | 's' => .S | 't' => .T
  | 'u' => .U | 'v' => .V | 'w' => .W | 'x' => .X | 'y' => .Y
  | 'z' => .Z
  | 'A' => .A | 'B' => .B | 'C' => .C | 'D' => .D | 'E' => .E
  | 'F' => .F | 'G' => .G | 'H' => .H | 'I' => .I | 'J' => .J
  | 'K' => .K | 'L' => .L | 'M' => .M | 'N' => .N | 'O' => .O
  | 'P' => .P | 'Q' => .Q | 'R' => .R | 'S' => .S | 'T' => .T
  | 'U' => .U | 'V' => .V | 'W' => .W | 'X' => .X | 'Y' => .Y
  | 'Z' => .Z
  | '0' => .Key0 | '1' => .Key1 | '2' => .Key2 | '3' => .Key3
  | '4' => .Key4 | '5' => .Key5 | '6' => .Key6 | '7' => .Key7
  | '8' => .Key8 | '9' => .Key9
  | '!' => .Key1 | '@' => .Key2 | '#' => .Key3 | '$' => .Key4
  | '%' => .Key5 | '^' => .Key6 | '&' => .Key7 | '*' => .Key8
  | '(' => .Key9 | ')' => .Key0
  | '-' => .Minus | '_' => .Minus
  | '=' => .Equal | '+' => .Equal
  | '[' => .LeftBracket | '{' => .LeftBracket
  | ']' => .RightBracket | '}' => .RightBracket
  | '\\' => .BackSlash | '|' => .BackSlash
  | ';' => .Semicolon | ':' => .Semicolon
  | '\'' => .Apostrophe | '"' => .Apostrophe
  | ',' => .Comma | '<' => .Comma
  | '.' => .Dot | '>' => .Dot
  | '/' => .Slash | '?' => .Slash
  | ' ' => .Space
  | '`' => .Grave | '~' => .Grave
  | _ => .Space

/-- Translation of `keycode_to_char` in explore_layouts.rs; `unimplemented!`
cases default to a space character (never reached by the theorems below). -/
def keycode_to_char (code : Keycode) : Char :=
  match code with
  | .A => 'a' | .B => 'b' | .C => 'c' | .D => 'd' | .E => 'e'
  | .F => 'f' | .G => 'g' | .H => 'h' | .I => 'i' | .J => 'j'
  | .K => 'k' | .L => 'l' | .M => 'm' | .N => 'n' | .O => 'o'
  | .P => 'p' | .Q => 'q' | .R => 'r' | .S => 's' | .T => 't'
  | .U => 'u' | .V => 'v' | .W => 'w' | .X => 'x' | .Y => 'y'
  | .Z => 'z'
  | .Key0 => '0' | .Key1 => '1' | .Key2 => '2' | .Key3 => '3'
  | .Key4 => '4' | .Key5 => '5' | .Key6 => '6' | .Key7 => '7'
  | .Key8 => '8' | .Key9 => '9'
  | .Minus => '-' | .Equal => '=' | .LeftBracket => '['
  | .RightBracket => ']' | .BackSlash => '\\' | .Semicolon => ';'
  | .Apostrophe => '\'' | .Comma => ',' | .Dot => '.'
  | .Slash => '/' | .Grave => '`' | .Space => ' '
  | _ => ' '

/-- Translation of `default_shifted` in explore_layouts.rs; `unimplemented!`
cases default to the input character (never reached by the theorems below). -/
def default_shifted (c : Char) : Char :=
  match c with
  | 'a' => 'A' | 'b' => 'B' | 'c' => 'C' | 'd' => 'D' | 'e' => 'E'
  | 'f' => 'F' | 'g' => 'G' | 'h' => 'H' | 'i' => 'I' | 'j' => 'J'
  | 'k' => 'K' | 'l' => 'L' | 'm' => 'M' | 'n' => 'N' | 'o' => 'O'
  | 'p' => 'P' | 'q' => 'Q' | 'r' => 'R' | 's' => 'S' | 't' => 'T'
  | 'u' => 'U' | 'v' => 'V' | 'w' => 'W' | 'x' => 'X' | 'y' => 'Y'
  | 'z' => 'Z'
  | '0' => ')' | '1' => '!' | '2' => '@' | '3' => '#' | '4' => '$'
  | '5' => '%' | '6' => '^' | '7' => '&' | '8' => '*' | '9' => '('
  | '-' => '_' | '=' => '+' | '[' => '{' | ']' => '}'
  | '\\' => '|' | ';' => ':' | '\'' => '"' | ',' => '<'
  | '.' => '>' | '/' => '?' | '`' => '~'
  | _ => c

/-- Translation of `Key::keycode` in explore_layouts.rs. -/
def Key.keycode (k : Key) (shift : Bool) : Keycode :=
  match k with
  | .Normal normal shifted =>
      if shift then char_to_keycode shifted else char_to_keycode normal
  | .Backspace => .Backspace
  | .Tab => .Tab
  | .Enter => .Enter
  | .CapsLock => .CapsLock
  | .LShift => .LShift
  | .RShift => .RShift
  | .LCtrl => .LControl
  | .RCtrl => .RControl
  | .LAlt => .LAlt
  | .RAlt => .RAlt
  | .LMeta => .LMeta
  | .RMeta => .RMeta
  | .Space => .Space
  | .Escape => .Escape
  | .Home => .Home
  | .End => .End
  | .PageUp => .PageUp
  | .PageDown => .PageDown
  | .Left => .Left
  | .Right => .Right
  | .Up => .Up
  | .Down => .Down
  | .Delete => .Delete

/-- Translation of `Key::from_char_default_shifted`. -/
def Key.from_char_default_shifted (c : Char) : Key :=
  Key.Normal c (default_shifted c)

/-- A physical key slot, from `PhysicalKey` in src/lib.rs.  The `f64` score
and position become real numbers. -/
structure PhysicalKey where
  code : Keycode
  finger : Finger
  score : ℝ
  position : ℝ × ℝ

/-- Default physical key used to totalize out-of-bounds `Vec` indexing. -/
noncomputable def defaultPhysicalKey : PhysicalKey :=
  { code := .Space
    finger := { hand := .Left, finger := .Thumb }
    score := 0
    position := (0, 0) }

/-- Per-finger efficiency entry, from `FingerConfig` in src/lib.rs. -/
structure FingerConfig where
  finger : Finger
  score : ℝ

/-- Physical keyboard description, from `KeymapConfig` in src/lib.rs
(`PhysicalKeyboard` is a plain vector of keys). -/
structure KeymapConfig where
  fingers : List FingerConfig
  keys : List PhysicalKey

/-- Frequency statistics, from `Stats` in src/lib.rs restricted to the two
fields the optimizer reads.  The `HashMap`s become association lists with
first-match lookup. -/
structure Stats where
  individual_key_counts : List (Keycode × ℕ)
  consectutive_key_counts : List ((Keycode × Keycode) × ℕ)

/-- First-match association-list lookup; absent keys count 0, matching the
optimizer's `unwrap_or(&0)` on `HashMap::get`. -/
def getCount {κ : Type} [DecidableEq κ] : List (κ × ℕ) → κ → ℕ
  | [], _ => 0
  | (k, v) :: rest, key => if k = key then v else getCount rest key

/-- Swap of two list positions, modelling `Vec::swap` (the Rust call panics
out of bounds; here it is a no-op there, and every theorem about it carries
in-bounds hypotheses). -/
def list_swap {α : Type} (l : List α) (i j : ℕ) : List α :=
  match l.get? i, l.get? j with
  | some a, some b => (l.set i b).set j a
  | _, _ => l

/-- A candidate layout, from `struct Layout` in explore_layouts.rs.  The
`HashMap<Key, usize>` reverse index becomes a function `Key → Option ℕ`. -/
structure Layout where
  keys : List Key
  key_map : Key → Option ℕ

/-- HashMap insertion for the reverse index. -/
def mapInsert (m : Key → Option ℕ) (k : Key) (i : ℕ) : Key → Option ℕ :=
  fun q => if q = k then some i else m q

/-- Translation of `Layout::new`: build the reverse index by inserting each
key with its position, in order (later duplicates overwrite). -/
def Layout.new (keys : List Key) : Layout :=
  { keys := keys
    key_map := keys.enum.foldl (fun m e => mapInsert m e.2 e.1) (fun _ => none) }

/-- Translation of `Layout::get` (the Rust `unwrap` on a missing key is
totalized to slot 0; never reached by the theorems below). -/
def Layout.get (l : Layout) (k : Key) : ℕ :=
  (l.key_map k).getD 0

/-- Translation of `Layout::swap`: swap the two slots and re-insert both
moved keys into the reverse index (first position `i`, then `j`). -/
def Layout.swap (l : Layout) (i j : ℕ) : Layout :=
  let keys := list_swap l.keys i j
  { keys := keys
    key_map :=
      mapInsert (mapInsert l.key_map (keys.getD i Key.Space) i)
        (keys.getD j Key.Space) j }

/-- Translation of `distance` in explore_layouts.rs (euclidean distance of
the two slot positions). -/
noncomputable def distance (key1 key2 : PhysicalKey) : ℝ :=
  Real.sqrt ((key1.position.1 - key2.position.1) ^ 2 +
    (key1.position.2 - key2.position.2) ^ 2)

/-- The synergy table of `consecutive_finger_score` in explore_layouts.rs,
extracted verbatim as a function of the two finger kinds. -/
noncomputable def synergy (k1 k2 : FingerKind) : ℝ :=
  match k1, k2 with
  | .Pinky, .Pinky => 0.1
  | .Pinky, .Ring | .Ring, .Pinky => 0.2
  | .Pinky, .Middle | .Middle, .Pinky => 0.2
  | .Pinky, .Index | .Index, .Pinky => 0.5
  | .Pinky, .Thumb | .Thumb, .Pinky => 0.6
  | .Ring, .Ring => 0.1
  | .Ring, .Middle | .Middle, .Ring => 0.3
  | .Ring, .Index | .Index, .Ring => 0.3
  | .Ring, .Thumb | .Thumb, .Ring => 0.2
  | .Middle, .Middle => 0.2
  | .Middle, .Index | .Index, .Middle => 0.7
  | .Middle, .Thumb | .Thumb, .Middle => 0.7
  | .Index, .Index => 0.3
  | .Index, .Thumb | .Thumb, .Index => 0.9
  | .Thumb, .Thumb => 0.3

/-- The distance-importance table of `consecutive_finger_score` in
explore_layouts.rs, extracted verbatim. -/
noncomputable def distance_importance (k1 k2 : FingerKind) : ℝ :=
  match k1, k2 with
  | .Pinky, .Pinky => 1.0
  | .Pinky, .Ring | .Ring, .Pinky => 0.9
  | .Pinky, .Middle | .Middle, .Pinky => 0.8
  | .Pinky, .Index | .Index, .Pinky => 0.2
  | .Pinky, .Thumb | .Thumb, .Pinky => 0.1
  | .Ring, .Ring => 1.0
  | .Ring, .Middle | .Middle, .Ring => 0.9
  | .Ring, .Index | .Index, .Ring => 0.5
  | .Ring, .Thumb | .Thumb, .Ring => 0.1
  | .Middle, .Middle => 1.0
  | .Middle, .Index | .Index, .Middle => 0.7
  | .Middle, .Thumb | .Thumb, .Middle => 0.1
  | .Index, .Index => 1.0
  | .Index, .Thumb | .Thumb, .Index => 0.2
  | .Thumb, .Thumb => 1.0

/-- Translation of `consecutive_finger_score` in explore_layouts.rs, the
transition-cost function of the scoring model. -/
noncomputable def consecutive_finger_score (f1 f2 : Finger) (d : ℝ) : ℝ :=
  if d = 0 then 1
  else if f1.hand ≠ f2.hand then 1
  else
    let raw_score := 1 / (d + 1)
    let distance_score :=
      1 * (1 - distance_importance f1.finger f2.finger) +
        raw_score * distance_importance f1.finger f2.finger
    distance_score * synergy f1.finger f2.finger

/-- Translation of `get_physical_key_for_key` (the Rust `unwrap` and slice
index are totalized; never reached by the theorems below). -/
noncomputable def get_physical_key_for_key (layout : Layout)
    (config : KeymapConfig) (key : Key) : PhysicalKey :=
  config.keys.getD (layout.get key) defaultPhysicalKey

/-- Translation of `are_symmetric` in explore_layouts.rs. -/
noncomputable def are_symmetric (config : KeymapConfig) (pos1 pos2 : ℝ × ℝ) :
    Prop :=
  pos1.2 = pos2.2 ∧
    |((config.keys.map (fun k => k.position.1)).max?.getD 0) -
        max pos1.1 pos2.1 - min pos1.1 pos2.1| < 0.01

/-- Translation of `struct IntuitionPair(Key, Key)`. -/
structure IntuitionPair where
  k1 : Key
  k2 : Key

/-- Translation of `enum Intuition` in explore_layouts.rs. -/
inductive Intuition where
  | Close (pair : IntuitionPair)
  | Symmetric (pair : IntuitionPair)
  | SameRow (pair : IntuitionPair)
  | SameColumn (pair : IntuitionPair)
  | LeftOf (pair : IntuitionPair)
  | RightOf (pair : IntuitionPair)
  | Above (pair : IntuitionPair)
  | Below (pair : IntuitionPair)
  | Or (a b : Intuition)
  | And (a b : Intuition)

/-- Translation of `IntuitionPair::physical_keys`. -/
noncomputable def IntuitionPair.physical_keys (p : IntuitionPair)
    (layout : Layout) (keymap_config : KeymapConfig) :
    PhysicalKey × PhysicalKey :=
  (get_physical_key_for_key layout keymap_config p.k1,
    get_physical_key_for_key layout keymap_config p.k2)

/-- Translation of `Intuition::satisfied` (boolean predicates become
propositions). -/
noncomputable def Intuition.satisfied (layout : Layout)
    (keymap_config : KeymapConfig) : Intuition → Prop
  | .Close pair =>
      let pk := pair.physical_keys layout keymap_config
      distance pk.1 pk.2 < 1.1
  | .Symmetric pair =>
      let pk := pair.physical_keys layout keymap_config
      are_symmetric keymap_config pk.1.position pk.2.position
  | .SameRow pair =>
      let pk := pair.physical_keys layout keymap_config
      pk.1.position.2 = pk.2.position.2
  | .SameColumn pair =>
      let pk := pair.physical_keys layout keymap_config
      pk.1.position.1 = pk.2.position.1
  | .LeftOf pair =>
      let pk := pair.physical_keys layout keymap_config
      pk.1.position.1 < pk.2.position.1
  | .RightOf pair =>
      let pk := pair.physical_keys layout keymap_config
      pk.1.position.1 > pk.2.position.1
  | .Above pair =>
      let pk := pair.physical_keys layout keymap_config
      pk.1.position.2 < pk.2.position.2
  | .Below pair =>
      let pk := pair.physical_keys layout keymap_config
      pk.1.position.2 > pk.2.position.2
  | .Or a b =>
      a.satisfied layout keymap_config ∨ b.satisfied layout keymap_config
  | .And a b =>
      a.satisfied layout keymap_config ∧ b.satisfied layout keymap_config

open Classical in
/-- Translation of `intuition_score`: number of satisfied intuitions. -/
noncomputable def intuition_score (layout : Layout)
    (keymap_config : KeymapConfig) (ints : List Intuition) : ℝ :=
  (ints.map (fun int =>
    if int.satisfied layout keymap_config then (1 : ℝ) else 0)).sum

/-- Translation of the helper `close`. -/
def close (key1 key2 : Key) : Intuition := .Close ⟨key1, key2⟩

/-- Translation of the helper `symmetric`. -/
def symmetric (key1 key2 : Key) : Intuition := .Symmetric ⟨key1, key2⟩

/-- Translation of the helper `same_row`. -/
def same_row (key1 key2 : Key) : Intuition := .SameRow ⟨key1, key2⟩

/-- Translation of the helper `same_column`. -/
def same_column (key1 key2 : Key) : Intuition := .SameColumn ⟨key1, key2⟩

/-- Translation of the helper `left_of`. -/
def left_of (key1 key2 : Key) : Intuition := .LeftOf ⟨key1, key2⟩

/-- Translation of the helper `right_of`. -/
def right_of (key1 key2 : Key) : Intuition := .RightOf ⟨key1, key2⟩

/-- Translation of the helper `above`. -/
def above (key1 key2 : Key) : Intuition := .Above ⟨key1, key2⟩

/-- Translation of the helper `below`. -/
def below (key1 key2 : Key) : Intuition := .Below ⟨key1, key2⟩

/-- Translation of the helper `or`. -/
def orI (a b : Intuition) : Intuition := .Or a b

/-- Translation of the helper `and`. -/
def andI (a b : Intuition) : Intuition := .And a b

/-- Translation of the helper `key`. -/
def key (c : Char) : Key := Key.from_char_default_shifted c

/-- Translation of `intuitions()`: the fixed, hand-authored intuition set. -/
def intuitions : List Intuition :=
  [ andI (same_row .Left .Right) (left_of .Left .Right),
    andI (same_column .Up .Down) (above .Up .Down),
    orI (close .Left .Right) (symmetric .Left .Right),
    orI (close .Up .Down) (symmetric .Up .Down),
    orI (close .PageUp .PageDown) (symmetric .PageUp .PageDown),
    orI (close (key '[') (key ']')) (symmetric (key '[') (key ']')),
    symmetric .LShift .RShift,
    symmetric .LCtrl .RCtrl,
    close (key '1') (key '2'),
    close (key '2') (key '3'),
    close (key '4') (key '5'),
    close (key '5') (key '6'),
    close (key '7') (key '8'),
    close (key '8') (key '9'),
    close (key '1') (key '4'),
    close (key '2') (key '5'),
    close (key '3') (key '6'),
    close (key '4') (key '7'),
    close (key '5') (key '8'),
    close (key '6') (key '9') ]

/-- Translation of `layout_individual_key_score` in explore_layouts.rs. -/
noncomputable def layout_individual_key_score (layout : Layout)
    (stats : Stats) (keymap_config : KeymapConfig) : ℝ :=
  ((layout.keys.zip keymap_config.keys).map (fun e =>
    let count := getCount stats.individual_key_counts (e.1.keycode false)
    e.2.score *
      (match keymap_config.fingers.find? (fun c => c.finger == e.2.finger)
        with
        | some c => c.score
        | none => 0) *
      (count : ℝ))).sum

/-- Translation of `layout_consecutive_key_score` in explore_layouts.rs:
the enumerate/zip/skip(1) loop over consecutive slot indices. -/
noncomputable def layout_consecutive_key_score (layout : Layout)
    (stats : Stats) (keymap_config : KeymapConfig) : ℝ :=
  ((layout.keys.enum.zip (layout.keys.enum.drop 1)).map (fun e =>
    let key1_code := e.1.2.keycode false
    let key2_code := e.2.2.keycode false
    let pkey1 := keymap_config.keys.getD e.1.1 defaultPhysicalKey
    let pkey2 := keymap_config.keys.getD e.2.1 defaultPhysicalKey
    (getCount stats.consectutive_key_counts (key1_code, key2_code) : ℝ) *
      consecutive_finger_score pkey1.finger pkey1.finger
        (distance pkey1 pkey2))).sum

/-- Body of `layout_score` with the intuition set as an explicit argument
(the Rust function hardcodes `intuitions()` there). -/
noncomputable def layout_score_with (layout : Layout) (stats : Stats)
    (keymap_config : KeymapConfig) (ints : List Intuition) : ℝ :=
  layout_individual_key_score layout stats keymap_config +
    layout_consecutive_key_score layout stats keymap_config +
    100 * intuition_score layout keymap_config ints

/-- Translation of `layout_score` in explore_layouts.rs. -/
noncomputable def layout_score (layout : Layout) (stats : Stats)
    (keymap_config : KeymapConfig) : ℝ :=
  layout_score_with layout stats keymap_config intuitions

/-- Translation of `max_possible_score` in explore_layouts.rs. -/
noncomputable def max_possible_score (stats : Stats) : ℝ :=
  (stats.individual_key_counts.map (fun e => (e.2 : ℝ))).sum +
    (stats.consectutive_key_counts.map (fun e => (e.2 : ℝ))).sum +
    (intuitions.length : ℝ) * 100

/-- The seed-key construction inside `Gen for Layout`: each physical key is
mapped to its logical key (function keys 1:1, every other code to a printable
pair under the default shift convention). -/
def key_of_physical (p : PhysicalKey) : Key :=
  match p.code with
  | .Backspace => .Backspace
  | .Tab => .Tab
  | .Enter => .Enter
  | .CapsLock => .CapsLock
  | .LShift => .LShift
  | .RShift => .RShift
  | .LControl => .LCtrl
  | .RControl => .RCtrl
  | .LAlt => .LAlt
  | .RAlt => .RAlt
  | .LMeta => .LMeta
  | .RMeta => .RMeta
  | .Space => .Space
  | .Escape => .Escape
  | .Home => .Home
  | .End => .End
  | .PageUp => .PageUp
  | .PageDown => .PageDown
  | .Left => .Left
  | .Right => .Right
  | .Up => .Up
  | .Down => .Down
  | .Delete => .Delete
  | c => .Normal (keycode_to_char c) (default_shifted (keycode_to_char c))

/-- The seed key multiset (as a list, in physical-slot order) derived from
the keyboard configuration. -/
def seed_pool (config : KeymapConfig) : List Key :=
  config.keys.map key_of_physical

/-- Fisher-Yates shuffle as implemented by `rand`'s `SliceRandom::shuffle`
(for i in (1..len).rev() swap(i, gen_range(0..=i))); the random draws are
an oracle `r`, reduced mod i+1 to stay in range. -/
def fisher_yates (r : ℕ → ℕ) : ℕ → List Key → List Key
  | 0, l => l
  | i + 1, l => fisher_yates r i (list_swap l (i + 1) (r (i + 1) % (i + 2)))

/-- Translation of `Gen for Layout`: build the seed pool, shuffle it, wrap
it in a `Layout`. -/
def Layout.gen (config : KeymapConfig) (r : ℕ → ℕ) : Layout :=
  Layout.new (fisher_yates r ((seed_pool config).length - 1) (seed_pool config))

/-- The list of index pairs (i, j) with i < j < n, in the iteration order of
the nested loops of `Mutate for Layout`. -/
def mutate_pairs (n : ℕ) : List (ℕ × ℕ) :=
  (List.range n).flatMap (fun i => ((List.range n).drop (i + 1)).map (fun j => (i, j)))

/-- Translation of `Mutate for Layout`: for every pair i < j, swap the two
slots when the oracle coin (modelling `gen_bool(rate)`) says so. -/
def Layout.mutate (l : Layout) (o : ℕ → ℕ → Bool) : Layout :=
  (mutate_pairs l.keys.length).foldl
    (fun acc p => if o p.1 p.2 then acc.swap p.1 p.2 else acc) l

/-- First index of a key in a list (the inner loop of
`find_duplicate_key_index`). -/
def idx_of (k : Key) : List Key → Option ℕ
  | [] => none
  | a :: t => if a = k then some 0 else (idx_of k t).map (· + 1)

/-- Translation of `find_duplicate_key_index`: the first position j such
that some earlier position i < j holds the same key; `none` models the
`panic!` branch. -/
def find_dup_idx : List Key → Option ℕ
  | [] => none
  | k :: rest =>
    match idx_of k rest with
    | some p => some (p + 1)
    | none => (find_dup_idx rest).map (· + 1)

/-- Translation of `fix_missing_keys`: compute the keys of the parent set
missing from the child (the `HashSet` difference, enumerated here in parent
order), and overwrite one duplicate occurrence per missing key.  `none`
models the `panic!` when no duplicate is found. -/
def fix_missing_keys (child : List Key) (parent : List Key) : Option (List Key) :=
  (parent.dedup.filter (fun k => decide (¬ k ∈ child))).foldlM
    (fun ch k => (find_dup_idx ch).map (fun j => ch.set j k)) child

/-- Translation of `Crossover for Layout`: per-slot unbiased choice between
the parents (the coin flips are the oracle list `flips`), then repair both
children against the first parent's key set. -/
def Layout.crossover (l other : Layout) (flips : List Bool) :
    Option (Layout × Layout) :=
  let pairs := List.zipWith (fun pr b => if b then pr else (pr.2, pr.1))
    (l.keys.zip other.keys) flips
  match fix_missing_keys (pairs.map (fun pr => pr.1)) l.keys,
      fix_missing_keys (pairs.map (fun pr => pr.2)) l.keys with
  | some c1, some c2 => some (Layout.new c1, Layout.new c2)
  | _, _ => none

/-- The probability handed to `rng.gen_bool` in the annealing loop:
`((delta / max_possible_score) / temperature).exp()`. -/
noncomputable def metropolis_prob (delta mps temperature : ℝ) : ℝ :=
  Real.exp ((delta / mps) / temperature)

/-- One random choice of the annealing loop: the two slot indices and the
Bernoulli draw (a function of the probability handed to `gen_bool`). -/
structure AnnealChoice where
  i : ℕ
  j : ℕ
  accept : ℝ → Bool

/-- The loop state of `simmulated_annealing`. -/
structure AnnealState where
  layout : Layout
  score : ℝ
  best_layout : Layout
  best_score : ℝ
  temperature : ℝ

/-- The initialization of `simmulated_annealing`: current and best are the
initial layout, temperature is 1.0. -/
noncomputable def initAnnealState (stats : Stats) (keymap_config : KeymapConfig)
    (initial_layout : Layout) : AnnealState :=
  { layout := initial_layout
    score := layout_score initial_layout stats keymap_config
    best_layout := initial_layout
    best_score := layout_score initial_layout stats keymap_config
    temperature := 1 }

open Classical in
/-- One iteration of the `simmulated_annealing` loop body: swap two random
slots, update the tracked best on strict improvement, accept on positive
delta or (short-circuit `||`) on the Metropolis draw, cool the temperature. -/
noncomputable def anneal_step (stats : Stats) (keymap_config : KeymapConfig)
    (c : AnnealChoice) (s : AnnealState) : AnnealState :=
  let new_layout := s.layout.swap c.i c.j
  let new_score := layout_score new_layout stats keymap_config
  let best_layout := if new_score > s.best_score then new_layout else s.best_layout
  let best_score := if new_score > s.best_score then new_score else s.best_score
  let delta := new_score - s.score
  let accepted :=
    if delta > 0 then true
    else c.accept (metropolis_prob delta (max_possible_score stats) s.temperature)
  { layout := if accepted then new_layout else s.layout
    score := if accepted then new_score else s.score
    best_layout := best_layout
    best_score := best_score
    temperature := s.temperature * 0.9999 }

/-- The state of the annealing walk after k iterations (the k-th state the
loop passes through, before the temperature floor is consulted). -/
noncomputable def annealIter (stats : Stats) (keymap_config : KeymapConfig)
    (oracle : ℕ → AnnealChoice) (initial_layout : Layout) : ℕ → AnnealState
  | 0 => initAnnealState stats keymap_config initial_layout
  | k + 1 => anneal_step stats keymap_config (oracle k)
      (annealIter stats keymap_config oracle initial_layout k)

open Classical in
/-- The `simmulated_annealing` loop with explicit fuel: step, then break when
the cooled temperature drops below the floor.  `none` models fuel exhaustion
(the Rust loop has no fuel; termination is claim C7). -/
noncomputable def anneal_loop (stats : Stats) (keymap_config : KeymapConfig)
    (min_temperature : ℝ) (oracle : ℕ → AnnealChoice) :
    ℕ → ℕ → AnnealState → Option AnnealState
  | 0, _, _ => none
  | fuel + 1, k, s =>
    let s2 := anneal_step stats keymap_config (oracle k) s
    if s2.temperature < min_temperature then some s2
    else anneal_loop stats keymap_config min_temperature oracle fuel (k + 1) s2

/-- Translation of `simmulated_annealing`: run the loop from the initial
state and return the tracked best layout of the final state. -/
noncomputable def simmulated_annealing (stats : Stats)
    (keymap_config : KeymapConfig) (min_temperature : ℝ)
    (oracle : ℕ → AnnealChoice) (fuel : ℕ) (initial_layout : Layout) :
    Option Layout :=
  (anneal_loop stats keymap_config min_temperature oracle fuel 0
    (initAnnealState stats keymap_config initial_layout)).map
    (fun s => s.best_layout)

/-- The BigramScore formula as the specification words it: a sum over
consecutive indices (i, i+1) of the bigram frequency of the unshifted key
pair times the transition cost at slot i's finger (both arguments) and the
euclidean distance between the two slot positions. -/
noncomputable def bigramScoreSpec (layout : Layout) (stats : Stats)
    (keymap_config : KeymapConfig) : ℝ :=
  (Finset.range (layout.keys.length - 1)).sum (fun i =>
    (getCount stats.consectutive_key_counts
      ((layout.keys.getD i Key.Space).keycode false,
        (layout.keys.getD (i + 1) Key.Space).keycode false) : ℝ) *
    consecutive_finger_score
      (keymap_config.keys.getD i defaultPhysicalKey).finger
      (keymap_config.keys.getD i defaultPhysicalKey).finger
      (Real.sqrt
        (((keymap_config.keys.getD i defaultPhysicalKey).position.1 -
            (keymap_config.keys.getD (i + 1) defaultPhysicalKey).position.1) ^ 2 +
          ((keymap_config.keys.getD i defaultPhysicalKey).position.2 -
            (keymap_config.keys.getD (i + 1) defaultPhysicalKey).position.2) ^ 2)))

section SwapLemmas

variable {α : Type}

/-- Setting a position to the value it already holds is the identity. -/
theorem set_get_eq_self : ∀ (l : List α) (i : ℕ) (a : α),
    l.get? i = some a → l.set i a = l
  | [], i, a, h => by simp at h
  | c :: t, 0, a, h => by
      simp only [List.get?_cons_zero, Option.some.injEq] at h
      simp [h]
  | c :: t, i + 1, a, h => by
      simp only [List.get?_cons_succ] at h
      simp [set_get_eq_self t i a h]

/-- Moving an element of a list to the front while overwriting its slot is a
permutation. -/
theorem cons_set_perm : ∀ (l : List α) (j : ℕ) (a b : α),
    l.get? j = some b → (b :: l.set j a).Perm (a :: l)
  | [], j, a, b, h => by simp at h
  | c :: t, 0, a, b, h => by
      simp only [List.get?_cons_zero, Option.some.injEq] at h
      subst h
      simpa using List.Perm.swap a c t
  | c :: t, j + 1, a, b, h => by
      simp only [List.get?_cons_succ] at h
      simpa using (List.Perm.swap c b (t.set j a)).trans
        (((cons_set_perm t j a b h).cons c).trans (List.Perm.swap a c t))

/-- Exchanging the contents of two positions is a permutation. -/
theorem set_set_swap_perm : ∀ (l : List α) (i j : ℕ) (a b : α),
    l.get? i = some a → l.get? j = some b → ((l.set i b).set j a).Perm l
  | [], i, j, a, b, hi, _ => by simp at hi
  | c :: t, 0, 0, a, b, hi, hj => by
      simp only [List.get?_cons_zero, Option.some.injEq] at hi hj
      subst hi; subst hj
      simp
  | c :: t, 0, j + 1, a, b, hi, hj => by
      simp only [List.get?_cons_zero, Option.some.injEq] at hi
      simp only [List.get?_cons_succ] at hj
      subst hi
      simpa using cons_set_perm t j c b hj
  | c :: t, i + 1, 0, a, b, hi, hj => by
      simp only [List.get?_cons_zero, Option.some.injEq] at hj
      simp only [List.get?_cons_succ] at hi
      subst hj
      simpa using cons_set_perm t i c a hi
  | c :: t, i + 1, j + 1, a, b, hi, hj => by
      simp only [List.get?_cons_succ] at hi hj
      simpa using (set_set_swap_perm t i j a b hi hj).cons c

/-- The slot swap is always a permutation of the original list. -/
theorem list_swap_perm (l : List α) (i j : ℕ) : (list_swap l i j).Perm l := by
  unfold list_swap
  cases hi : l.get? i with
  | none => exact List.Perm.refl l
  | some a =>
    cases hj : l.get? j with
    | none => exact List.Perm.refl l
    | some b => exact set_set_swap_perm l i j a b hi hj

/-- The slot swap unfolded, once both positions are in bounds. -/
theorem list_swap_eq (l : List α) (i j : ℕ) (a b : α)
    (hgi : l.get? i = some a) (hgj : l.get? j = some b) :
    list_swap l i j = (l.set i b).set j a := by
  unfold list_swap
  rw [hgi, hgj]

/-- In bounds, the slot swap is an involution. -/
theorem list_swap_involution (l : List α) (i j : ℕ)
    (hi : i < l.length) (hj : j < l.length) :
    list_swap (list_swap l i j) i j = l := by
  have hgi : l.get? i = some (l.get ⟨i, hi⟩) := List.get?_eq_get hi
  have hgj : l.get? j = some (l.get ⟨j, hj⟩) := List.get?_eq_get hj
  by_cases hij : i = j
  · subst hij
    have h1 : list_swap l i i = l.set i (l.get ⟨i, hi⟩) := by
      rw [list_swap_eq l i i _ _ hgi hgi, List.set_set]
    have h2 : (l.set i (l.get ⟨i, hi⟩)).get? i = some (l.get ⟨i, hi⟩) := by
      rw [List.get?_eq_getElem?]
      exact List.getElem?_set_self hi
    rw [h1, list_swap_eq _ i i _ _ h2 h2, List.set_set, List.set_set,
      set_get_eq_self l i _ hgi]
  · have h1 : list_swap l i j =
        (l.set i (l.get ⟨j, hj⟩)).set j (l.get ⟨i, hi⟩) :=
      list_swap_eq l i j _ _ hgi hgj
    have hi2 : ((l.set i (l.get ⟨j, hj⟩)).set j (l.get ⟨i, hi⟩)).get? i =
        some (l.get ⟨j, hj⟩) := by
      rw [List.get?_eq_getElem?, List.getElem?_set_ne (Ne.symm hij)]
      exact List.getElem?_set_self hi
    have hj2 : ((l.set i (l.get ⟨j, hj⟩)).set j (l.get ⟨i, hi⟩)).get? j =
        some (l.get ⟨i, hi⟩) := by
      rw [List.get?_eq_getElem?]
      exact List.getElem?_set_self (by simpa using hj)
    rw [h1, list_swap_eq _ i j _ _ hi2 hj2,
      List.set_comm _ _ _ (Ne.symm hij), List.set_set, List.set_set,
      set_get_eq_self l i _ hgi, set_get_eq_self l j _ hgj]

end SwapLemmas

section CostLemmas

/-- The synergy table is symmetric in its two finger kinds. -/
theorem synergy_comm (a b : FingerKind) : synergy a b = synergy b a := by
  cases a <;> cases b <;> rfl

/-- The synergy table is bounded between 0.1 and 0.9. -/
theorem synergy_bounds (a b : FingerKind) :
    (0.1 : ℝ) ≤ synergy a b ∧ synergy a b ≤ 0.9 := by
  cases a <;> cases b <;> constructor <;> norm_num [synergy]

/-- The distance-importance table lies in (0, 1]. -/
theorem distance_importance_bounds (a b : FingerKind) :
    (0 : ℝ) < distance_importance a b ∧ distance_importance a b ≤ 1 := by
  cases a <;> cases b <;> constructor <;> norm_num [distance_importance]

/-- The transition cost is strictly positive at every nonnegative distance. -/
theorem consecutive_finger_score_pos (f1 f2 : Finger) (d : ℝ) (hd : 0 ≤ d) :
    0 < consecutive_finger_score f1 f2 d := by
  unfold consecutive_finger_score
  by_cases h0 : d = 0
  · simp [h0]
  · by_cases hh : f1.hand ≠ f2.hand
    · simp [h0, hh]
    · simp only [h0, hh, if_false, ite_false, if_neg]
      have hw := distance_importance_bounds f1.finger f2.finger
      have hs := synergy_bounds f1.finger f2.finger
      have hd1 : (0 : ℝ) < d + 1 := by linarith
      have hraw : (0 : ℝ) < 1 / (d + 1) := by positivity
      have : (0 : ℝ) < 1 * (1 - distance_importance f1.finger f2.finger) +
          1 / (d + 1) * distance_importance f1.finger f2.finger := by nlinarith
      exact mul_pos this (by linarith)

end CostLemmas

/-- Claim C8: the transition cost is exactly 1.0 at distance zero for every
finger pair, and exactly 1.0 for cross-hand pairs at every distance; its only
division has denominator d + 1, nonzero for every nonnegative distance, so no
division by zero is performed. -/
theorem C8_transition_cost_boundaries :
    (∀ f1 f2 : Finger, consecutive_finger_score f1 f2 0 = 1) ∧
    (∀ (f1 f2 : Finger) (d : ℝ), f1.hand ≠ f2.hand →
      consecutive_finger_score f1 f2 d = 1) ∧
    (∀ d : ℝ, 0 ≤ d → d + 1 ≠ 0) := by
  refine ⟨?_, ?_, ?_⟩
  · intro f1 f2
    simp [consecutive_finger_score]
  · intro f1 f2 d h
    by_cases h0 : d = 0 <;> simp [consecutive_finger_score, h0, h]
  · intro d hd
    intro hcontra
    linarith

/-- Witness for C8 at concrete inputs. -/
theorem C8_transition_cost_boundaries_witness :
    consecutive_finger_score ⟨Hand.Left, FingerKind.Index⟩
      ⟨Hand.Right, FingerKind.Index⟩ 2 = 1 ∧ ((2 : ℝ) + 1 ≠ 0) :=
  ⟨C8_transition_cost_boundaries.2.1 _ _ 2 (by decide),
    C8_transition_cost_boundaries.2.2 2 (by norm_num)⟩

/-- The unordered finger-kind pairs, as the image of all ordered pairs. -/
def fingerPairSet : Finset (Finset FingerKind) :=
  (Finset.univ : Finset (FingerKind × FingerKind)).image
    (fun p => ({p.1, p.2} : Finset FingerKind))

/-- Counterexample to claim C5 as stated: the synergy table does not attain
0.1 at every same-finger pair (Middle-Middle is 0.2), and there are 15
unordered finger-kind pairs, not 13. -/
theorem C5_counterexample :
    synergy FingerKind.Middle FingerKind.Middle = 0.2 ∧
    ((0.2 : ℝ) ≠ 0.1) ∧ fingerPairSet.card = 15 ∧ (15 : ℕ) ≠ 13 := by
  refine ⟨rfl, by norm_num, ?_, by norm_num⟩
  decide

/-- The value 0.1 is attained in the synergy table at Pinky-Pinky and
Ring-Ring and nowhere else. -/
theorem synergy_min_only (a b : FingerKind) (h : synergy a b = 0.1) :
    (a = FingerKind.Pinky ∧ b = FingerKind.Pinky) ∨
      (a = FingerKind.Ring ∧ b = FingerKind.Ring) := by
  cases a <;> cases b <;>
    first
      | exact Or.inl ⟨rfl, rfl⟩
      | exact Or.inr ⟨rfl, rfl⟩
      | exact absurd h (by norm_num [synergy])

/-- Claim C5 as amended: the synergy table is keyed by unordered finger-kind
pair (symmetric), the 5 finger kinds form 15 unordered pairs, all values lie
in [0.1, 0.9], the minimum 0.1 is attained at the Pinky and Ring same-finger
repeats and at no other pair (Middle-Middle is 0.2, Index-Index and
Thumb-Thumb are 0.3), and the maximum 0.9 at the Index-Thumb pair; the table
takes no distance argument. -/
theorem C5_synergy_table :
    (∀ a b, synergy a b = synergy b a) ∧
    fingerPairSet.card = 15 ∧
    (∀ a b, (0.1 : ℝ) ≤ synergy a b ∧ synergy a b ≤ 0.9) ∧
    synergy FingerKind.Pinky FingerKind.Pinky = 0.1 ∧
    synergy FingerKind.Ring FingerKind.Ring = 0.1 ∧
    (∀ a b, synergy a b = 0.1 →
      (a = FingerKind.Pinky ∧ b = FingerKind.Pinky) ∨
        (a = FingerKind.Ring ∧ b = FingerKind.Ring)) ∧
    synergy FingerKind.Middle FingerKind.Middle = 0.2 ∧
    synergy FingerKind.Index FingerKind.Index = 0.3 ∧
    synergy FingerKind.Thumb FingerKind.Thumb = 0.3 ∧
    synergy FingerKind.Index FingerKind.Thumb = 0.9 ∧
    synergy FingerKind.Thumb FingerKind.Index = 0.9 := by
  exact ⟨synergy_comm, by decide, synergy_bounds, rfl, rfl, synergy_min_only,
    rfl, rfl, rfl, rfl, rfl⟩

/-- Witness for the amended C5 at the concrete pair Ring-Ring, whose synergy
value is 0.1. -/
theorem C5_synergy_table_witness :
    (FingerKind.Ring = FingerKind.Pinky ∧ FingerKind.Ring = FingerKind.Pinky) ∨
      (FingerKind.Ring = FingerKind.Ring ∧ FingerKind.Ring = FingerKind.Ring) :=
  C5_synergy_table.2.2.2.2.2.1 FingerKind.Ring FingerKind.Ring rfl

section BigramSum

/-- The ordered pair of unshifted keycodes at consecutive slots i, i+1. -/
def consecPairAt (l : Layout) (i : ℕ) : Keycode × Keycode :=
  ((l.keys.getD i Key.Space).keycode false,
    (l.keys.getD (i + 1) Key.Space).keycode false)

/-- The transition-cost factor of the bigram term at slot index i. -/
noncomputable def consecCostAt (keymap_config : KeymapConfig) (i : ℕ) : ℝ :=
  consecutive_finger_score
    (keymap_config.keys.getD i defaultPhysicalKey).finger
    (keymap_config.keys.getD i defaultPhysicalKey).finger
    (distance (keymap_config.keys.getD i defaultPhysicalKey)
      (keymap_config.keys.getD (i + 1) defaultPhysicalKey))

/-- The enumerate/zip/skip(1) loop, rewritten as a sum over the index range.
Stated over `enumFrom` so that the induction goes through. -/
theorem enumFrom_zip_sum {β : Type} [AddCommMonoid β]
    (f : (ℕ × Key) × (ℕ × Key) → β) :
    ∀ (l : List Key) (n0 : ℕ),
      (((l.enumFrom n0).zip ((l.enumFrom n0).drop 1)).map f).sum =
        (Finset.range (l.length - 1)).sum (fun i =>
          f ((n0 + i, l.getD i Key.Space), (n0 + i + 1, l.getD (i + 1) Key.Space)))
  | [], n0 => by simp
  | [a], n0 => by simp
  | a :: b :: t, n0 => by
      have ih := enumFrom_zip_sum f (b :: t) (n0 + 1)
      simp only [List.enumFrom_cons, List.drop_succ_cons, List.drop_zero,
        List.zip_cons_cons, List.map_cons, List.sum_cons] at ih ⊢
      rw [ih, show (a :: b :: t).length - 1 = ((b :: t).length - 1) + 1 by simp,
        Finset.sum_range_succ', add_comm]
      congr 1
      · apply Finset.sum_congr rfl
        intro i _
        have h1 : n0 + 1 + i = n0 + (i + 1) := by omega
        rw [h1]
        simp only [List.getD_cons_succ]

/-- The consecutive-key score is the range-indexed sum of its bigram terms. -/
theorem consec_eq_range (l : Layout) (stats : Stats)
    (keymap_config : KeymapConfig) :
    layout_consecutive_key_score l stats keymap_config =
      (Finset.range (l.keys.length - 1)).sum (fun i =>
        (getCount stats.consectutive_key_counts (consecPairAt l i) : ℝ) *
          consecCostAt keymap_config i) := by
  unfold layout_consecutive_key_score
  rw [show l.keys.enum = l.keys.enumFrom 0 from rfl, enumFrom_zip_sum]
  apply Finset.sum_congr rfl
  intro i _
  simp [consecPairAt, consecCostAt]

end BigramSum

/-- Claim C4: BigramScore is exactly the sum, over consecutive slot indices
(i, i+1) in enumeration order, of the bigram frequency of the unshifted key
pair times the transition cost taken at slot i's finger for both arguments
and the euclidean distance between the two slot positions; no other index
pair contributes. -/
theorem C4_bigram_score_formula (l : Layout) (stats : Stats)
    (keymap_config : KeymapConfig) :
    layout_consecutive_key_score l stats keymap_config =
      bigramScoreSpec l stats keymap_config := by
  rw [consec_eq_range]
  apply Finset.sum_congr rfl
  intro i _
  simp [consecPairAt, consecCostAt, bigramScoreSpec, distance]

section TwoSlotExample

/-- The finger of the spec's end-to-end example: Left-Index. -/
def exFinger : Finger := ⟨Hand.Left, FingerKind.Index⟩

/-- The two-slot physical keyboard of the end-to-end example: slots at
(0,0) and (1,0), both Left-Index, base score 1.0, finger score 1.0. -/
noncomputable def exCfg : KeymapConfig :=
  { fingers := [⟨exFinger, 1⟩]
    keys := [⟨Keycode.A, exFinger, 1, (0, 0)⟩, ⟨Keycode.B, exFinger, 1, (1, 0)⟩] }

/-- The printable key for 'a'. -/
def kA : Key := Key.Normal 'a' 'A'

/-- The printable key for 'b'. -/
def kB : Key := Key.Normal 'b' 'B'

/-- The layout placing 'a' on slot 0 and 'b' on slot 1. -/
def exLayoutAB : Layout := Layout.new [kA, kB]

/-- The layout placing 'b' on slot 0 and 'a' on slot 1. -/
def exLayoutBA : Layout := Layout.new [kB, kA]

/-- The frequency model of the example: counts a:10, b:1, bigram (a,b):5. -/
def exStats : Stats :=
  { individual_key_counts := [(Keycode.A, 10), (Keycode.B, 1)]
    consectutive_key_counts := [((Keycode.A, Keycode.B), 5)] }

/-- Unshifted keycode of the example key for 'a'. -/
theorem kA_code : kA.keycode false = Keycode.A := rfl

/-- Unshifted keycode of the example key for 'b'. -/
theorem kB_code : kB.keycode false = Keycode.B := rfl

/-- Individual count of keycode A in the example stats. -/
theorem exS_countA : getCount exStats.individual_key_counts Keycode.A = 10 := rfl

/-- Individual count of keycode B in the example stats. -/
theorem exS_countB : getCount exStats.individual_key_counts Keycode.B = 1 := rfl

/-- Bigram count of (A, B) in the example stats. -/
theorem exS_biAB :
    getCount exStats.consectutive_key_counts (Keycode.A, Keycode.B) = 5 := rfl

/-- Bigram count of (B, A) in the example stats. -/
theorem exS_biBA :
    getCount exStats.consectutive_key_counts (Keycode.B, Keycode.A) = 0 := rfl

/-- The keycode pair at the consecutive slot pair of the a-then-b layout. -/
theorem ex_pairAB : consecPairAt exLayoutAB 0 = (Keycode.A, Keycode.B) := rfl

/-- The keycode pair at the consecutive slot pair of the b-then-a layout. -/
theorem ex_pairBA : consecPairAt exLayoutBA 0 = (Keycode.B, Keycode.A) := rfl

/-- The transition cost between the two example slots is 0.15. -/
theorem ex_costAt : consecCostAt exCfg 0 = 0.15 := by
  simp only [consecCostAt, exCfg, List.getD_cons_zero, List.getD_cons_succ]
  have hd : distance (⟨Keycode.A, exFinger, 1, (0, 0)⟩ : PhysicalKey)
      ⟨Keycode.B, exFinger, 1, (1, 0)⟩ = 1 := by
    simp only [distance]
    norm_num
  rw [hd]
  simp only [consecutive_finger_score, exFinger, distance_importance, synergy]
  norm_num

/-- IndividualScore of the a-then-b example layout. -/
theorem ex_ind_AB : layout_individual_key_score exLayoutAB exStats exCfg = 11 := by
  simp only [layout_individual_key_score, exLayoutAB, Layout.new, exCfg,
    List.zip_cons_cons, List.zip_nil_right, List.map_cons, List.map_nil,
    List.sum_cons, List.sum_nil, kA_code, kB_code, exS_countA, exS_countB,
    List.find?]
  norm_num [exFinger]

/-- IndividualScore of the b-then-a example layout. -/
theorem ex_ind_BA : layout_individual_key_score exLayoutBA exStats exCfg = 11 := by
  simp only [layout_individual_key_score, exLayoutBA, Layout.new, exCfg,
    List.zip_cons_cons, List.zip_nil_right, List.map_cons, List.map_nil,
    List.sum_cons, List.sum_nil, kA_code, kB_code, exS_countA, exS_countB,
    List.find?]
  norm_num [exFinger]

/-- Length of the example layouts. -/
theorem ex_lenAB : exLayoutAB.keys.length = 2 := rfl

/-- Length of the b-then-a example layout. -/
theorem ex_lenBA : exLayoutBA.keys.length = 2 := rfl

/-- BigramScore of the a-then-b example layout: the (a,b) bigram occurs at
the consecutive slot pair, contributing 5 × 0.15. -/
theorem ex_consec_AB :
    layout_consecutive_key_score exLayoutAB exStats exCfg = 0.75 := by
  rw [consec_eq_range, ex_lenAB]
  rw [show (2 - 1 : ℕ) = 1 from rfl, Finset.sum_range_one, ex_pairAB,
    exS_biAB, ex_costAt]
  norm_num

/-- BigramScore of the b-then-a example layout: the only stored bigram is
(a,b), which does not occur, so the score is 0. -/
theorem ex_consec_BA :
    layout_consecutive_key_score exLayoutBA exStats exCfg = 0 := by
  rw [consec_eq_range, ex_lenBA]
  rw [show (2 - 1 : ℕ) = 1 from rfl, Finset.sum_range_one, ex_pairBA,
    exS_biBA, ex_costAt]
  norm_num

end TwoSlotExample

/-- Counterexample to claim C2 as stated: on the spec's two-slot example
(with the empty intuition set the example prescribes) the two permutations
do not receive the same fitness, because the stored bigram (a,b) contributes
only when 'a' occupies the earlier slot. -/
theorem C2_counterexample :
    layout_score_with exLayoutAB exStats exCfg [] ≠
      layout_score_with exLayoutBA exStats exCfg [] := by
  have h1 : layout_score_with exLayoutAB exStats exCfg [] = 11.75 := by
    simp only [layout_score_with, intuition_score, List.map_nil, List.sum_nil,
      ex_ind_AB, ex_consec_AB]
    norm_num
  have h2 : layout_score_with exLayoutBA exStats exCfg [] = 11 := by
    simp only [layout_score_with, intuition_score, List.map_nil, List.sum_nil,
      ex_ind_BA, ex_consec_BA]
    norm_num
  rw [h1, h2]
  norm_num

/-- Claim C2 as amended: on the spec's two-slot example the IndividualScores
of the two permutations agree (11 each), but the fitness values differ —
11.75 for a-then-b against 11 for b-then-a — because the bigram count is an
ordered pair and only the a-then-b order matches the stored bigram (a,b). -/
theorem C2_example_scores :
    layout_score_with exLayoutAB exStats exCfg [] = 11.75 ∧
    layout_score_with exLayoutBA exStats exCfg [] = 11 ∧
    layout_individual_key_score exLayoutAB exStats exCfg =
      layout_individual_key_score exLayoutBA exStats exCfg ∧
    layout_consecutive_key_score exLayoutAB exStats exCfg ≠
      layout_consecutive_key_score exLayoutBA exStats exCfg := by
  refine ⟨?_, ?_, ?_, ?_⟩
  · simp only [layout_score_with, intuition_score, List.map_nil, List.sum_nil,
      ex_ind_AB, ex_consec_AB]
    norm_num
  · simp only [layout_score_with, intuition_score, List.map_nil, List.sum_nil,
      ex_ind_BA, ex_consec_BA]
    norm_num
  · rw [ex_ind_AB, ex_ind_BA]
  · rw [ex_consec_AB, ex_consec_BA]
    norm_num

section BigramMonotonicity

/-- The euclidean distance is nonnegative. -/
theorem distance_nonneg (k1 k2 : PhysicalKey) : 0 ≤ distance k1 k2 :=
  Real.sqrt_nonneg _

/-- The empty frequency model. -/
def exStatsZero : Stats := ⟨[], []⟩

/-- A frequency model with the single bigram (b, a) counted once. -/
def exStatsBA1 : Stats := ⟨[], [((Keycode.B, Keycode.A), 1)]⟩

/-- A frequency model with the single bigram (a, b) counted once. -/
def exStatsAB1 : Stats := ⟨[], [((Keycode.A, Keycode.B), 1)]⟩

/-- Counterexample to claim C3 as stated: on the two-slot keyboard with the
a-then-b layout, raising the count of the bigram (b, a) — which occurs at no
consecutive slot pair — from 0 to 1 (all other counts of both tables fixed:
both tables are otherwise empty) leaves BigramScore unchanged at 0, so the
increase is not strict. -/
theorem C3_counterexample :
    exStatsZero.individual_key_counts = exStatsBA1.individual_key_counts ∧
    exStatsZero.consectutive_key_counts = [] ∧
    exStatsBA1.consectutive_key_counts = [((Keycode.B, Keycode.A), 1)] ∧
    getCount exStatsZero.consectutive_key_counts (Keycode.B, Keycode.A) = 0 ∧
    getCount exStatsBA1.consectutive_key_counts (Keycode.B, Keycode.A) = 1 ∧
    layout_consecutive_key_score exLayoutAB exStatsZero exCfg = 0 ∧
    layout_consecutive_key_score exLayoutAB exStatsBA1 exCfg = 0 := by
  refine ⟨rfl, rfl, rfl, rfl, rfl, ?_, ?_⟩
  · rw [consec_eq_range, ex_lenAB]
    rw [show (2 - 1 : ℕ) = 1 from rfl, Finset.sum_range_one, ex_pairAB]
    rw [show getCount exStatsZero.consectutive_key_counts
      (Keycode.A, Keycode.B) = 0 from rfl]
    simp
  · rw [consec_eq_range, ex_lenAB]
    rw [show (2 - 1 : ℕ) = 1 from rfl, Finset.sum_range_one, ex_pairAB]
    rw [show getCount exStatsBA1.consectutive_key_counts
      (Keycode.A, Keycode.B) = 0 from rfl]
    simp

/-- Claim C3 as amended: increasing a single bigram count (all other lookups
fixed) leaves IndividualScore unchanged, changes the fitness exactly by the
BigramScore change (IntuitionScore takes no frequency input), weakly
increases BigramScore, strictly increases it when the bigram occurs at some
consecutive slot pair of the layout, and leaves it unchanged when the bigram
occurs at no consecutive slot pair. -/
theorem C3_bigram_monotonicity (l : Layout) (keymap_config : KeymapConfig)
    (s s' : Stats) (x y : Keycode)
    (hind : s'.individual_key_counts = s.individual_key_counts)
    (hoth : ∀ p : Keycode × Keycode, p ≠ (x, y) →
      getCount s'.consectutive_key_counts p =
        getCount s.consectutive_key_counts p)
    (hinc : getCount s.consectutive_key_counts (x, y) <
      getCount s'.consectutive_key_counts (x, y)) :
    layout_individual_key_score l s' keymap_config =
      layout_individual_key_score l s keymap_config ∧
    layout_score l s' keymap_config - layout_score l s keymap_config =
      layout_consecutive_key_score l s' keymap_config -
        layout_consecutive_key_score l s keymap_config ∧
    layout_consecutive_key_score l s keymap_config ≤
      layout_consecutive_key_score l s' keymap_config ∧
    (∀ i, i + 1 < l.keys.length → consecPairAt l i = (x, y) →
      layout_consecutive_key_score l s keymap_config <
        layout_consecutive_key_score l s' keymap_config) ∧
    ((∀ i, i + 1 < l.keys.length → consecPairAt l i ≠ (x, y)) →
      layout_consecutive_key_score l s' keymap_config =
        layout_consecutive_key_score l s keymap_config) := by
  have hcost : ∀ i, 0 < consecCostAt keymap_config i := fun i =>
    consecutive_finger_score_pos _ _ _ (distance_nonneg _ _)
  have hle : ∀ i, (getCount s.consectutive_key_counts (consecPairAt l i) : ℝ) *
      consecCostAt keymap_config i ≤
      (getCount s'.consectutive_key_counts (consecPairAt l i) : ℝ) *
        consecCostAt keymap_config i := by
    intro i
    apply mul_le_mul_of_nonneg_right _ (le_of_lt (hcost i))
    by_cases h : consecPairAt l i = (x, y)
    · rw [h]
      exact_mod_cast le_of_lt hinc
    · rw [hoth _ h]
  have hindeq : layout_individual_key_score l s' keymap_config =
      layout_individual_key_score l s keymap_config := by
    simp only [layout_individual_key_score, hind]
  refine ⟨hindeq, ?_, ?_, ?_, ?_⟩
  · simp only [layout_score, layout_score_with, hindeq]
    ring
  · rw [consec_eq_range, consec_eq_range]
    exact Finset.sum_le_sum (fun i _ => hle i)
  · intro i0 hi0 hpair
    rw [consec_eq_range, consec_eq_range]
    refine Finset.sum_lt_sum (fun i _ => hle i) ⟨i0, Finset.mem_range.2 (by omega), ?_⟩
    apply mul_lt_mul_of_pos_right _ (hcost i0)
    rw [hpair]
    exact_mod_cast hinc
  · intro hnone
    rw [consec_eq_range, consec_eq_range]
    refine Finset.sum_congr rfl (fun i hi => ?_)
    rw [hoth _ (hnone i (by
      have := Finset.mem_range.1 hi
      omega))]

/-- Witness for C3 as amended: on the two-slot example, raising the (a,b)
bigram count from 0 to 1 strictly increases BigramScore. -/
theorem C3_bigram_monotonicity_witness :
    layout_consecutive_key_score exLayoutAB exStatsZero exCfg <
      layout_consecutive_key_score exLayoutAB exStatsAB1 exCfg := by
  have h := C3_bigram_monotonicity exLayoutAB exCfg exStatsZero exStatsAB1
    Keycode.A Keycode.B rfl
    (fun p hp => by
      simp only [exStatsAB1, exStatsZero, getCount]
      rw [if_neg (fun h => hp h.symm)])
    (by decide)
  exact h.2.2.2.1 0 (by decide) ex_pairAB

end BigramMonotonicity

section SwapInvolution

/-- The keys of a swapped layout. -/
theorem Layout.swap_keys (l : Layout) (i j : ℕ) :
    (l.swap i j).keys = list_swap l.keys i j := rfl

/-- The reverse index of a swapped layout. -/
theorem Layout.swap_key_map (l : Layout) (i j : ℕ) :
    (l.swap i j).key_map =
      mapInsert (mapInsert l.key_map ((list_swap l.keys i j).getD i Key.Space) i)
        ((list_swap l.keys i j).getD j Key.Space) j := rfl

/-- After an in-bounds swap, position j holds the old value of position i. -/
theorem list_swap_get_right {α : Type} (l : List α) (i j : ℕ)
    (hi : i < l.length) (hj : j < l.length) :
    (list_swap l i j).get? j = l.get? i := by
  have hga : l.get? i = some (l.get ⟨i, hi⟩) := List.get?_eq_get hi
  have hgb : l.get? j = some (l.get ⟨j, hj⟩) := List.get?_eq_get hj
  rw [list_swap_eq l i j _ _ hga hgb, hga, List.get?_eq_getElem?]
  exact List.getElem?_set_self (by simpa using hj)

/-- After an in-bounds swap, position i holds the old value of position j. -/
theorem list_swap_get_left {α : Type} (l : List α) (i j : ℕ)
    (hi : i < l.length) (hj : j < l.length) :
    (list_swap l i j).get? i = l.get? j := by
  have hga : l.get? i = some (l.get ⟨i, hi⟩) := List.get?_eq_get hi
  have hgb : l.get? j = some (l.get ⟨j, hj⟩) := List.get?_eq_get hj
  rw [list_swap_eq l i j _ _ hga hgb]
  by_cases hij : i = j
  · subst hij
    rw [hga, List.get?_eq_getElem?]
    exact List.getElem?_set_self (by simpa using hi)
  · rw [hgb, List.get?_eq_getElem?, List.getElem?_set_ne (Ne.symm hij)]
    exact List.getElem?_set_self (by simpa using hi)

/-- Claim C9: for a layout whose reverse index is coherent (every key maps
back to its slot), swapping the same in-bounds pair twice restores both the
key array and the reverse index exactly. -/
theorem C9_swap_involution (l : Layout) (i j : ℕ)
    (hi : i < l.keys.length) (hj : j < l.keys.length)
    (hwf : ∀ idx : Fin l.keys.length, l.key_map (l.keys.get idx) = some idx.1) :
    ((l.swap i j).swap i j).keys = l.keys ∧
    ((l.swap i j).swap i j).key_map = l.key_map := by
  have hinv : list_swap (l.swap i j).keys i j = l.keys := by
    rw [Layout.swap_keys]
    exact list_swap_involution l.keys i j hi hj
  have hkeys : ((l.swap i j).swap i j).keys = l.keys := by
    rw [Layout.swap_keys]
    exact hinv
  refine ⟨hkeys, ?_⟩
  have hga : l.keys.get? i = some (l.keys.get ⟨i, hi⟩) := List.get?_eq_get hi
  have hgb : l.keys.get? j = some (l.keys.get ⟨j, hj⟩) := List.get?_eq_get hj
  have hma : l.key_map (l.keys.get ⟨i, hi⟩) = some i := hwf ⟨i, hi⟩
  have hmb : l.key_map (l.keys.get ⟨j, hj⟩) = some j := hwf ⟨j, hj⟩
  have h1i : (list_swap l.keys i j).getD i Key.Space = l.keys.get ⟨j, hj⟩ := by
    rw [List.getD_eq_getElem?_getD, ← List.get?_eq_getElem?,
      list_swap_get_left l.keys i j hi hj, hgb]
    rfl
  have h1j : (list_swap l.keys i j).getD j Key.Space = l.keys.get ⟨i, hi⟩ := by
    rw [List.getD_eq_getElem?_getD, ← List.get?_eq_getElem?,
      list_swap_get_right l.keys i j hi hj, hga]
    rfl
  have h2i : l.keys.getD i Key.Space = l.keys.get ⟨i, hi⟩ := by
    rw [List.getD_eq_getElem?_getD, ← List.get?_eq_getElem?, hga]
    rfl
  have h2j : l.keys.getD j Key.Space = l.keys.get ⟨j, hj⟩ := by
    rw [List.getD_eq_getElem?_getD, ← List.get?_eq_getElem?, hgb]
    rfl
  have hm1 : (l.swap i j).key_map =
      mapInsert (mapInsert l.key_map (l.keys.get ⟨j, hj⟩) i)
        (l.keys.get ⟨i, hi⟩) j := by
    rw [Layout.swap_key_map, h1i, h1j]
  have hm2 : ((l.swap i j).swap i j).key_map =
      mapInsert (mapInsert (l.swap i j).key_map (l.keys.get ⟨i, hi⟩) i)
        (l.keys.get ⟨j, hj⟩) j := by
    rw [Layout.swap_key_map, hinv, h2i, h2j]
  rw [hm2, hm1]
  funext k
  simp only [mapInsert]
  by_cases hkb : k = l.keys.get ⟨j, hj⟩
  · rw [if_pos hkb, hkb, hmb]
  · rw [if_neg hkb]
    by_cases hka : k = l.keys.get ⟨i, hi⟩
    · rw [if_pos hka, hka, hma]
    · rw [if_neg hka, if_neg hka, if_neg hkb]

/-- Witness for C9 on a concrete two-key layout. -/
theorem C9_swap_involution_witness :
    ((exLayoutAB.swap 0 1).swap 0 1).keys = exLayoutAB.keys ∧
    ((exLayoutAB.swap 0 1).swap 0 1).key_map = exLayoutAB.key_map :=
  C9_swap_involution exLayoutAB 0 1 (by decide) (by decide) (by decide)

end SwapInvolution

section PermInvariant

/-- The keys of a freshly built layout. -/
theorem Layout.new_keys (ks : List Key) : (Layout.new ks).keys = ks := rfl

/-- The Fisher-Yates shuffle permutes its input. -/
theorem fisher_yates_perm (r : ℕ → ℕ) :
    ∀ (n : ℕ) (l : List Key), (fisher_yates r n l).Perm l
  | 0, l => List.Perm.refl l
  | n + 1, l =>
      (fisher_yates_perm r n _).trans (list_swap_perm l (n + 1) (r (n + 1) % (n + 2)))

/-- Any fold of optional swaps over a layout permutes its keys. -/
theorem mutate_fold_perm (o : ℕ → ℕ → Bool) :
    ∀ (ps : List (ℕ × ℕ)) (l : Layout),
      ((ps.foldl (fun acc p => if o p.1 p.2 then acc.swap p.1 p.2 else acc)
        l).keys).Perm l.keys
  | [], l => List.Perm.refl l.keys
  | p :: t, l => by
      rw [List.foldl_cons]
      refine (mutate_fold_perm o t _).trans ?_
      by_cases h : o p.1 p.2
      · rw [if_pos h, Layout.swap_keys]
        exact list_swap_perm l.keys p.1 p.2
      · rw [if_neg h]

/-- A found index points into the list. -/
theorem get?_some_lt {α : Type} {l : List α} {n : ℕ} {a : α}
    (h : l.get? n = some a) : n < l.length := by
  by_contra hn
  rw [List.get?_eq_none.2 (by omega)] at h
  cases h

/-- A successful key search returns the position of that key. -/
theorem idx_of_get : ∀ (l : List Key) (k : Key) (p : ℕ),
    idx_of k l = some p → l.get? p = some k
  | [], k, p, h => by simp [idx_of] at h
  | a :: t, k, p, h => by
      by_cases hak : a = k
      · simp only [idx_of, if_pos hak, Option.some.injEq] at h
        subst h
        simp [hak]
      · simp only [idx_of, if_neg hak] at h
        cases hq : idx_of k t with
        | none => rw [hq] at h; cases h
        | some q =>
            rw [hq] at h
            simp only [Option.map_some', Option.some.injEq] at h
            subst h
            simpa using idx_of_get t k q hq

/-- The key search succeeds on present keys. -/
theorem idx_of_isSome_of_mem : ∀ (l : List Key) (k : Key),
    k ∈ l → (idx_of k l).isSome
  | [], k, h => by simp at h
  | a :: t, k, h => by
      by_cases hak : a = k
      · simp [idx_of, if_pos hak]
      · have hkt : k ∈ t := by
          rcases List.mem_cons.1 h with h1 | h1
          · exact absurd h1.symm hak
          · exact h1
        have := idx_of_isSome_of_mem t k hkt
        simp only [idx_of, if_neg hak]
        cases hq : idx_of k t with
        | none => rw [hq] at this; cases this
        | some q => simp

/-- A found duplicate index is in bounds and has an earlier equal entry. -/
theorem find_dup_spec : ∀ (l : List Key) (j : ℕ),
    find_dup_idx l = some j →
      ∃ i, i < j ∧ l.get? i = l.get? j ∧ j < l.length
  | [], j, h => by simp [find_dup_idx] at h
  | k :: rest, j, h => by
      simp only [find_dup_idx] at h
      cases hp : idx_of k rest with
      | some p =>
          rw [hp] at h
          simp only [Option.some.injEq] at h
          subst h
          have hget := idx_of_get rest k p hp
          exact ⟨0, by omega, by simpa using hget.symm,
            by have := get?_some_lt hget; simp; omega⟩
      | none =>
          rw [hp] at h
          cases hr : find_dup_idx rest with
          | none => rw [hr] at h; cases h
          | some j0 =>
              rw [hr] at h
              simp only [Option.map_some', Option.some.injEq] at h
              subst h
              obtain ⟨i0, hi0, hgeq, hlen⟩ := find_dup_spec rest j0 hr
              exact ⟨i0 + 1, by omega, by simpa using hgeq, by simp; omega⟩

/-- On a list with a duplicate, the duplicate search succeeds. -/
theorem find_dup_isSome : ∀ (l : List Key), ¬ l.Nodup → (find_dup_idx l).isSome
  | [], h => absurd List.nodup_nil h
  | k :: rest, h => by
      simp only [find_dup_idx]
      cases hp : idx_of k rest with
      | some p => simp
      | none =>
          have hknot : k ∉ rest := by
            intro hmem
            have := idx_of_isSome_of_mem rest k hmem
            rw [hp] at this
            cases this
          have hrest : ¬ rest.Nodup := by
            intro hnd
            exact h (List.nodup_cons.2 ⟨hknot, hnd⟩)
          have := find_dup_isSome rest hrest
          cases hr : find_dup_idx rest with
          | none => rw [hr] at this; cases this
          | some j0 => simp

/-- Invariant of the repair fold: starting from a child of the right length
whose entries come from the seed, with the missing-key list disjoint from the
child and jointly covering the seed, the fold succeeds and produces a
permutation of the seed. -/
theorem fix_fold_perm (S : List Key) (hS : S.Nodup) :
    ∀ (m c : List Key), m.Nodup → (∀ x ∈ m, x ∈ S) → (∀ x ∈ m, x ∉ c) →
      (∀ x ∈ S, x ∈ c ∨ x ∈ m) → c.length = S.length → (∀ x ∈ c, x ∈ S) →
      ∃ c2, m.foldlM
          (fun ch k => (find_dup_idx ch).map (fun j => ch.set j k)) c =
          some c2 ∧ c2.Perm S
  | [], c, _, _, _, hcov, hlen, hcsub => by
      refine ⟨c, by simp, ?_⟩
      have hsub : S ⊆ c := fun x hx => (hcov x hx).resolve_right (by simp)
      exact ((hS.subperm hsub).perm_of_length_le (le_of_eq hlen)).symm
  | k :: m', c, hmnd, hmS, hdisj, hcov, hlen, hcsub => by
      have hknotc : k ∉ c := hdisj k (List.mem_cons_self _ _)
      have hkS : k ∈ S := hmS k (List.mem_cons_self _ _)
      have hndc : ¬ c.Nodup := by
        intro hnd
        have hperm := (hnd.subperm hcsub).perm_of_length_le (le_of_eq hlen.symm)
        exact hknotc (hperm.mem_iff.2 hkS)
      cases hj : find_dup_idx c with
      | none =>
          have := find_dup_isSome c hndc
          rw [hj] at this
          cases this
      | some j =>
          obtain ⟨i0, hi0j, hgeq, hjlen⟩ := find_dup_spec c j hj
          have step : ∀ x ∈ c, x ∈ c.set j k := by
            intro x hx
            obtain ⟨p, hp⟩ := List.mem_iff_get?.1 hx
            by_cases hpj : p = j
            · subst hpj
              have : c.get? i0 = some x := hgeq.trans hp
              have hne : i0 ≠ p := by omega
              apply List.get?_mem (n := i0)
              rw [List.get?_eq_getElem?, List.getElem?_set_ne (Ne.symm hne),
                ← List.get?_eq_getElem?]
              exact this
            · apply List.get?_mem (n := p)
              rw [List.get?_eq_getElem?, List.getElem?_set_ne (Ne.symm hpj),
                ← List.get?_eq_getElem?]
              exact hp
          obtain ⟨c2, hrun, hperm⟩ := fix_fold_perm S hS m' (c.set j k)
            (List.nodup_cons.1 hmnd).2
            (fun x hx => hmS x (List.mem_cons_of_mem k hx))
            (fun x hx hxc => by
              rcases List.mem_or_eq_of_mem_set hxc with h1 | h1
              · exact hdisj x (List.mem_cons_of_mem k hx) h1
              · exact (List.nodup_cons.1 hmnd).1 (h1 ▸ hx))
            (fun x hx => by
              rcases hcov x hx with h1 | h1
              · exact Or.inl (step x h1)
              · rcases List.mem_cons.1 h1 with h2 | h2
                · exact Or.inl (h2 ▸ List.mem_set c j hjlen k)
                · exact Or.inr h2)
            (by simpa using hlen)
            (fun x hx => by
              rcases List.mem_or_eq_of_mem_set hx with h1 | h1
              · exact hcsub x h1
              · exact h1 ▸ hkS)
          refine ⟨c2, ?_, hperm⟩
          rw [List.foldlM_cons]
          rw [show (find_dup_idx c).map (fun j => c.set j k) =
            some (c.set j k) by rw [hj]; rfl]
          exact hrun

/-- The repair step succeeds on any child of the right length drawn from a
duplicate-free seed, and returns a permutation of the seed. -/
theorem fix_missing_perm (S child : List Key) (hS : S.Nodup)
    (hlen : child.length = S.length) (hsub : ∀ x ∈ child, x ∈ S) :
    ∃ c2, fix_missing_keys child S = some c2 ∧ c2.Perm S := by
  unfold fix_missing_keys
  apply fix_fold_perm S hS _ child
  · exact (List.nodup_dedup S).filter _
  · intro x hx
    exact List.mem_dedup.1 (List.mem_filter.1 hx).1
  · intro x hx
    exact of_decide_eq_true (List.mem_filter.1 hx).2
  · intro x hx
    by_cases hxc : x ∈ child
    · exact Or.inl hxc
    · exact Or.inr (List.mem_filter.2 ⟨List.mem_dedup.2 hx, decide_eq_true hxc⟩)
  · exact hlen
  · exact hsub

/-- Every entry of a crossover child comes from one of the parent pair
lists. -/
theorem mem_cross_fst : ∀ (ps : List (Key × Key)) (flips : List Bool) (x : Key),
    x ∈ (List.zipWith (fun pr b => if b then pr else (pr.2, pr.1)) ps
      flips).map (fun pr => pr.1) → ∃ pr ∈ ps, x = pr.1 ∨ x = pr.2
  | [], flips, x, h => by simp at h
  | p :: t, [], x, h => by simp at h
  | p :: t, b :: bt, x, h => by
      simp only [List.zipWith_cons_cons, List.map_cons, List.mem_cons] at h
      rcases h with h1 | h1
      · refine ⟨p, List.mem_cons_self _ _, ?_⟩
        by_cases hb : b
        · rw [if_pos hb] at h1
          exact Or.inl h1
        · rw [if_neg hb] at h1
          exact Or.inr h1
      · obtain ⟨pr, hpr, hx⟩ := mem_cross_fst t bt x h1
        exact ⟨pr, List.mem_cons_of_mem p hpr, hx⟩

/-- Every entry of the second crossover child comes from one of the parent
pair lists. -/
theorem mem_cross_snd : ∀ (ps : List (Key × Key)) (flips : List Bool) (x : Key),
    x ∈ (List.zipWith (fun pr b => if b then pr else (pr.2, pr.1)) ps
      flips).map (fun pr => pr.2) → ∃ pr ∈ ps, x = pr.1 ∨ x = pr.2
  | [], flips, x, h => by simp at h
  | p :: t, [], x, h => by simp at h
  | p :: t, b :: bt, x, h => by
      simp only [List.zipWith_cons_cons, List.map_cons, List.mem_cons] at h
      rcases h with h1 | h1
      · refine ⟨p, List.mem_cons_self _ _, ?_⟩
        by_cases hb : b
        · rw [if_pos hb] at h1
          exact Or.inr h1
        · rw [if_neg hb] at h1
          exact Or.inl h1
      · obtain ⟨pr, hpr, hx⟩ := mem_cross_snd t bt x h1
        exact ⟨pr, List.mem_cons_of_mem p hpr, hx⟩

end PermInvariant

/-- Claim C1: the multiset of keys of every layout produced by gen, by
mutate (from any layout already carrying the seed multiset, hence by any
number of mutate calls), or by crossover after repair (from parents carrying
the seed multiset) equals the seed key multiset derived from the physical
keyboard configuration — stated as list permutation with the seed list,
which itself is duplicate-free. -/
theorem C1_permutation_invariant (config : KeymapConfig) (r : ℕ → ℕ)
    (o : ℕ → ℕ → Bool) (flips : List Bool) (p1 p2 : Layout)
    (hseed : (seed_pool config).Nodup)
    (hp1 : p1.keys.Perm (seed_pool config))
    (hp2 : p2.keys.Perm (seed_pool config))
    (hflips : flips.length = (seed_pool config).length) :
    (Layout.gen config r).keys.Perm (seed_pool config) ∧
    (∀ l : Layout, l.keys.Perm (seed_pool config) →
      (l.mutate o).keys.Perm (seed_pool config)) ∧
    (∃ c1 c2 : Layout, p1.crossover p2 flips = some (c1, c2) ∧
      c1.keys.Perm (seed_pool config) ∧ c2.keys.Perm (seed_pool config)) := by
  refine ⟨?_, ?_, ?_⟩
  · rw [Layout.gen, Layout.new_keys]
    exact fisher_yates_perm r _ _
  · intro l hl
    exact (mutate_fold_perm o (mutate_pairs l.keys.length) l).trans hl
  · have hlen1 : p1.keys.length = (seed_pool config).length := hp1.length_eq
    have hlen2 : p2.keys.length = (seed_pool config).length := hp2.length_eq
    have hnd1 : p1.keys.Nodup := hp1.nodup_iff.2 hseed
    set pairs := List.zipWith (fun pr b => if b then pr else (pr.2, pr.1))
      (p1.keys.zip p2.keys) flips with hpairs
    have hplen : pairs.length = p1.keys.length := by
      rw [hpairs, List.length_zipWith, List.length_zip]
      omega
    have hsub1 : ∀ x ∈ pairs.map (fun pr => pr.1), x ∈ p1.keys := by
      intro x hx
      obtain ⟨pr, hpr, hor⟩ := mem_cross_fst _ _ _ hx
      have hmem := List.of_mem_zip hpr
      rcases hor with h | h
      · exact h ▸ hmem.1
      · exact hp1.mem_iff.2 (hp2.mem_iff.1 (h ▸ hmem.2))
    have hsub2 : ∀ x ∈ pairs.map (fun pr => pr.2), x ∈ p1.keys := by
      intro x hx
      obtain ⟨pr, hpr, hor⟩ := mem_cross_snd _ _ _ hx
      have hmem := List.of_mem_zip hpr
      rcases hor with h | h
      · exact h ▸ hmem.1
      · exact hp1.mem_iff.2 (hp2.mem_iff.1 (h ▸ hmem.2))
    obtain ⟨c1, hc1, hperm1⟩ := fix_missing_perm p1.keys
      (pairs.map (fun pr => pr.1)) hnd1 (by simp [hplen]) hsub1
    obtain ⟨c2, hc2, hperm2⟩ := fix_missing_perm p1.keys
      (pairs.map (fun pr => pr.2)) hnd1 (by simp [hplen]) hsub2
    refine ⟨Layout.new c1, Layout.new c2, ?_, ?_, ?_⟩
    · rw [Layout.crossover, ← hpairs, hc1, hc2]
    · rw [Layout.new_keys]
      exact hperm1.trans hp1
    · rw [Layout.new_keys]
      exact hperm2.trans hp1

/-- Witness for C1 on the concrete two-slot configuration. -/
theorem C1_permutation_invariant_witness :
    (Layout.gen exCfg (fun _ => 0)).keys.Perm (seed_pool exCfg) :=
  (C1_permutation_invariant exCfg (fun _ => 0) (fun _ _ => false) [true, true]
    (Layout.new [kA, kB]) (Layout.new [kA, kB]) (by decide)
    (List.Perm.refl _) (List.Perm.refl _) (by decide)).1

section Annealing

variable (stats : Stats) (keymap_config : KeymapConfig)

/-- The tracked best score after one annealing step. -/
theorem anneal_step_best_score (c : AnnealChoice) (s : AnnealState) :
    (anneal_step stats keymap_config c s).best_score =
      if layout_score (s.layout.swap c.i c.j) stats keymap_config > s.best_score
      then layout_score (s.layout.swap c.i c.j) stats keymap_config
      else s.best_score := rfl

/-- The tracked best layout after one annealing step. -/
theorem anneal_step_best_layout (c : AnnealChoice) (s : AnnealState) :
    (anneal_step stats keymap_config c s).best_layout =
      if layout_score (s.layout.swap c.i c.j) stats keymap_config > s.best_score
      then s.layout.swap c.i c.j
      else s.best_layout := rfl

/-- The temperature is multiplied by 0.9999 at every step, regardless of
acceptance. -/
theorem anneal_step_temperature (c : AnnealChoice) (s : AnnealState) :
    (anneal_step stats keymap_config c s).temperature =
      s.temperature * 0.9999 := rfl

/-- One annealing step never lowers the tracked best score. -/
theorem anneal_step_best_mono (c : AnnealChoice) (s : AnnealState) :
    s.best_score ≤ (anneal_step stats keymap_config c s).best_score := by
  rw [anneal_step_best_score]
  by_cases h : layout_score (s.layout.swap c.i c.j) stats keymap_config >
      s.best_score
  · rw [if_pos h]
    exact le_of_lt h
  · rw [if_neg h]

/-- One annealing step either keeps the best layout or replaces it together
with a strictly larger best score. -/
theorem anneal_step_best_replace (c : AnnealChoice) (s : AnnealState) :
    (anneal_step stats keymap_config c s).best_layout = s.best_layout ∨
      s.best_score < (anneal_step stats keymap_config c s).best_score := by
  rw [anneal_step_best_layout, anneal_step_best_score]
  by_cases h : layout_score (s.layout.swap c.i c.j) stats keymap_config >
      s.best_score
  · rw [if_pos h, if_pos h]
    exact Or.inr h
  · rw [if_neg h]
    exact Or.inl rfl

/-- One annealing step preserves coherence of the tracked best pair. -/
theorem anneal_step_coherent (c : AnnealChoice) (s : AnnealState)
    (hc : s.best_score = layout_score s.best_layout stats keymap_config) :
    (anneal_step stats keymap_config c s).best_score =
      layout_score ((anneal_step stats keymap_config c s).best_layout)
        stats keymap_config := by
  rw [anneal_step_best_score, anneal_step_best_layout]
  by_cases h : layout_score (s.layout.swap c.i c.j) stats keymap_config >
      s.best_score
  · rw [if_pos h, if_pos h]
  · rw [if_neg h, if_neg h]
    exact hc

/-- The walk state after k+1 iterations. -/
theorem annealIter_succ (oracle : ℕ → AnnealChoice) (l0 : Layout) (k : ℕ) :
    annealIter stats keymap_config oracle l0 (k + 1) =
      anneal_step stats keymap_config (oracle k)
        (annealIter stats keymap_config oracle l0 k) := rfl

/-- The tracked best score never drops below the initial score. -/
theorem annealIter_best_mono (oracle : ℕ → AnnealChoice) (l0 : Layout) :
    ∀ k, layout_score l0 stats keymap_config ≤
      (annealIter stats keymap_config oracle l0 k).best_score
  | 0 => le_refl _
  | k + 1 =>
      le_trans (annealIter_best_mono oracle l0 k)
        (anneal_step_best_mono stats keymap_config (oracle k) _)

/-- The tracked best score always equals the fitness of the tracked best
layout. -/
theorem annealIter_coherent (oracle : ℕ → AnnealChoice) (l0 : Layout) :
    ∀ k, (annealIter stats keymap_config oracle l0 k).best_score =
      layout_score ((annealIter stats keymap_config oracle l0 k).best_layout)
        stats keymap_config
  | 0 => rfl
  | k + 1 =>
      anneal_step_coherent stats keymap_config (oracle k) _
        (annealIter_coherent oracle l0 k)

/-- The walk temperature after k iterations. -/
theorem annealIter_temperature (oracle : ℕ → AnnealChoice) (l0 : Layout) :
    ∀ k, (annealIter stats keymap_config oracle l0 k).temperature =
      (0.9999 : ℝ) ^ k
  | 0 => by
      rw [pow_zero]
      rfl
  | k + 1 => by
      rw [annealIter_succ, anneal_step_temperature,
        annealIter_temperature oracle l0 k, pow_succ]

/-- A loop run only raises the tracked best score of its start state. -/
theorem anneal_loop_best_mono (minT : ℝ) (oracle : ℕ → AnnealChoice) :
    ∀ (fuel k : ℕ) (s st : AnnealState),
      anneal_loop stats keymap_config minT oracle fuel k s = some st →
        s.best_score ≤ st.best_score
  | 0, k, s, st, h => by simp [anneal_loop] at h
  | fuel + 1, k, s, st, h => by
      rw [anneal_loop] at h
      by_cases hlt : (anneal_step stats keymap_config (oracle k) s).temperature
          < minT
      · simp only [hlt, if_true, Option.some.injEq] at h
        exact h ▸ anneal_step_best_mono stats keymap_config (oracle k) s
      · simp only [hlt, if_false] at h
        exact le_trans (anneal_step_best_mono stats keymap_config (oracle k) s)
          (anneal_loop_best_mono minT oracle fuel (k + 1) _ st h)

/-- With enough fuel relative to the cooling schedule, the loop reaches the
temperature floor and terminates. -/
theorem anneal_loop_some (minT : ℝ) (oracle : ℕ → AnnealChoice) :
    ∀ (fuel k : ℕ) (s : AnnealState),
      s.temperature * (0.9999 : ℝ) ^ (fuel + 1) < minT →
        (anneal_loop stats keymap_config minT oracle (fuel + 1) k s).isSome
  | 0, k, s, h => by
      rw [anneal_loop]
      have : (anneal_step stats keymap_config (oracle k) s).temperature <
          minT := by
        rw [anneal_step_temperature]
        calc s.temperature * 0.9999 = s.temperature * 0.9999 ^ (0 + 1) := by
              norm_num
          _ < minT := h
      simp [this]
  | fuel + 1, k, s, h => by
      rw [anneal_loop]
      by_cases hlt : (anneal_step stats keymap_config (oracle k) s).temperature
          < minT
      · simp [hlt]
      · simp only [hlt, if_false]
        apply anneal_loop_some minT oracle fuel (k + 1)
        rw [anneal_step_temperature]
        calc s.temperature * 0.9999 * 0.9999 ^ (fuel + 1) =
            s.temperature * 0.9999 ^ (fuel + 1 + 1) := by ring
          _ < minT := h

end Annealing

/-- Claim C6: along any annealing walk, the fitness of the tracked best
layout is at every iteration at least the fitness of the initial layout, and
the best layout is only ever replaced together with a strictly greater best
score. -/
theorem C6_annealing_best_tracking (stats : Stats)
    (keymap_config : KeymapConfig) (oracle : ℕ → AnnealChoice)
    (initial_layout : Layout) (k : ℕ) :
    layout_score initial_layout stats keymap_config ≤
      layout_score
        ((annealIter stats keymap_config oracle initial_layout k).best_layout)
        stats keymap_config ∧
    (annealIter stats keymap_config oracle initial_layout k).best_score =
      layout_score
        ((annealIter stats keymap_config oracle initial_layout k).best_layout)
        stats keymap_config ∧
    ((annealIter stats keymap_config oracle initial_layout (k + 1)).best_layout =
        (annealIter stats keymap_config oracle initial_layout k).best_layout ∨
      (annealIter stats keymap_config oracle initial_layout k).best_score <
        (annealIter stats keymap_config oracle initial_layout (k + 1)).best_score) := by
  refine ⟨?_, ?_, ?_⟩
  · rw [← annealIter_coherent stats keymap_config oracle initial_layout k]
    exact annealIter_best_mono stats keymap_config oracle initial_layout k
  · exact annealIter_coherent stats keymap_config oracle initial_layout k
  · rw [annealIter_succ]
    exact anneal_step_best_replace stats keymap_config (oracle k) _

/-- Claim C7: for every temperature floor strictly between 0 and 1 the
annealing loop terminates — the temperature starts at 1.0 and is multiplied
by 0.9999 every iteration regardless of acceptance, so finite fuel reaches
the floor — and the function returns the tracked best layout of the final
state, not its current layout. -/
theorem C7_annealing_terminates (stats : Stats)
    (keymap_config : KeymapConfig) (oracle : ℕ → AnnealChoice)
    (initial_layout : Layout) (minT : ℝ) (h0 : 0 < minT) (h1 : minT < 1) :
    (initAnnealState stats keymap_config initial_layout).temperature = 1 ∧
    (∀ (c : AnnealChoice) (s : AnnealState),
      (anneal_step stats keymap_config c s).temperature =
        s.temperature * 0.9999) ∧
    ∃ fuel st,
      anneal_loop stats keymap_config minT oracle fuel 0
        (initAnnealState stats keymap_config initial_layout) = some st ∧
      simmulated_annealing stats keymap_config minT oracle fuel
        initial_layout = some st.best_layout := by
  refine ⟨rfl, fun c s => rfl, ?_⟩
  obtain ⟨n, hn⟩ := exists_pow_lt_of_lt_one h0
    (show (0.9999 : ℝ) < 1 by norm_num)
  have hfuel : (initAnnealState stats keymap_config initial_layout).temperature *
      (0.9999 : ℝ) ^ (n + 1) < minT := by
    have ht : (initAnnealState stats keymap_config initial_layout).temperature =
        1 := rfl
    rw [ht, one_mul]
    calc (0.9999 : ℝ) ^ (n + 1) ≤ 0.9999 ^ n := by
          apply pow_le_pow_of_le_one (by norm_num) (by norm_num)
          omega
      _ < minT := hn
  have hsome := anneal_loop_some stats keymap_config minT oracle n 0
    (initAnnealState stats keymap_config initial_layout) hfuel
  cases hrun : anneal_loop stats keymap_config minT oracle (n + 1) 0
      (initAnnealState stats keymap_config initial_layout) with
  | none => rw [hrun] at hsome; cases hsome
  | some st =>
      refine ⟨n + 1, st, hrun, ?_⟩
      rw [simmulated_annealing, hrun]
      rfl

/-- Witness for C7 at a concrete floor and configuration. -/
theorem C7_annealing_terminates_witness :
    ∃ fuel st,
      anneal_loop exStatsZero ⟨[], []⟩ (1 / 2) (fun _ => ⟨0, 0, fun _ => true⟩)
        fuel 0 (initAnnealState exStatsZero ⟨[], []⟩ (Layout.new [])) =
        some st ∧
      simmulated_annealing exStatsZero ⟨[], []⟩ (1 / 2)
        (fun _ => ⟨0, 0, fun _ => true⟩) fuel (Layout.new []) =
        some st.best_layout :=
  (C7_annealing_terminates exStatsZero ⟨[], []⟩ (fun _ => ⟨0, 0, fun _ => true⟩)
    (Layout.new []) (1 / 2) (by norm_num) (by norm_num)).2.2

/-- Claim C10: the Metropolis draw is consulted only when the fitness delta
is nonpositive (the disjunction short-circuits on positive delta); the fixed
intuition set has 20 members, so MaxPossibleScore is at least 2000 and in
particular strictly positive for every frequency model; the walk temperature
is 0.9999^k, strictly positive; and whenever delta ≤ 0, MaxPossibleScore > 0
and temperature > 0, the probability handed to the Bernoulli draw lies in
(0, 1], with a zero delta giving probability exactly 1. -/
theorem C10_metropolis_safety :
    intuitions.length = 20 ∧
    (∀ stats : Stats, 2000 ≤ max_possible_score stats ∧
      0 < max_possible_score stats) ∧
    (∀ (stats : Stats) (keymap_config : KeymapConfig)
      (oracle : ℕ → AnnealChoice) (l0 : Layout) (k : ℕ),
      0 < (annealIter stats keymap_config oracle l0 k).temperature) ∧
    (∀ (stats : Stats) (keymap_config : KeymapConfig) (c : AnnealChoice)
      (s : AnnealState),
      layout_score (s.layout.swap c.i c.j) stats keymap_config - s.score ≤ 0 →
      (anneal_step stats keymap_config c s).layout =
        (if c.accept (metropolis_prob
            (layout_score (s.layout.swap c.i c.j) stats keymap_config - s.score)
            (max_possible_score stats) s.temperature)
          then s.layout.swap c.i c.j else s.layout)) ∧
    (∀ delta mps temperature : ℝ, delta ≤ 0 → 0 < mps → 0 < temperature →
      0 < metropolis_prob delta mps temperature ∧
        metropolis_prob delta mps temperature ≤ 1) ∧
    (∀ mps temperature : ℝ, metropolis_prob 0 mps temperature = 1) := by
  refine ⟨rfl, ?_, ?_, ?_, ?_, ?_⟩
  · intro s
    have h1 : (0 : ℝ) ≤ (s.individual_key_counts.map (fun e => (e.2 : ℝ))).sum :=
      List.sum_nonneg (by
        intro x hx
        obtain ⟨e, _, he⟩ := List.mem_map.1 hx
        rw [← he]
        exact Nat.cast_nonneg _)
    have h2 : (0 : ℝ) ≤
        (s.consectutive_key_counts.map (fun e => (e.2 : ℝ))).sum :=
      List.sum_nonneg (by
        intro x hx
        obtain ⟨e, _, he⟩ := List.mem_map.1 hx
        rw [← he]
        exact Nat.cast_nonneg _)
    have hlen : ((intuitions.length : ℝ)) * 100 = 2000 := by
      rw [show intuitions.length = 20 from rfl]
      norm_num
    constructor
    · rw [max_possible_score, hlen]
      linarith
    · rw [max_possible_score, hlen]
      linarith
  · intro stats keymap_config oracle l0 k
    rw [annealIter_temperature]
    positivity
  · intro stats keymap_config c s h
    have hnpos : ¬ (layout_score (s.layout.swap c.i c.j) stats keymap_config -
        s.score > 0) := not_lt.2 h
    show (if (if layout_score (s.layout.swap c.i c.j) stats keymap_config -
        s.score > 0 then true
        else c.accept (metropolis_prob
          (layout_score (s.layout.swap c.i c.j) stats keymap_config - s.score)
          (max_possible_score stats) s.temperature)) = true
      then s.layout.swap c.i c.j else s.layout) = _
    rw [if_neg hnpos]
  · intro delta mps temperature hd hm ht
    constructor
    · exact Real.exp_pos _
    · rw [metropolis_prob, Real.exp_le_one_iff]
      have h1 : delta / mps ≤ 0 := div_nonpos_iff.2 (Or.inr ⟨hd, hm.le⟩)
      exact div_nonpos_iff.2 (Or.inr ⟨h1, ht.le⟩)
  · intro mps temperature
    rw [metropolis_prob, zero_div, zero_div, Real.exp_zero]

/-- Witness for C10 at concrete probability arguments. -/
theorem C10_metropolis_safety_witness :
    0 < metropolis_prob (-1) 2000 1 ∧ metropolis_prob (-1) 2000 1 ≤ 1 :=
  C10_metropolis_safety.2.2.2.2.1 (-1) 2000 1 (by norm_num) (by norm_num)
    (by norm_num)

end KeyboardLayout
